import Mathlib

/-!
# Verification of the simplerr error-composition library

This file is a shallow embedding, in Lean 4, of the core of the
`github.com/StevenACoffman/simplerr/errors` Go package:

* the binary chain combinator `With` / type `wrapper` (errors/with.go),
* the stack-annotation nodes `withStack` (withstack file) and
  `withFields` (withfields file),
* the chain traversal `UnwrapOnce` / `getEntries` / `getLastStack`,
* the identity query `Is` (errors/stderrors.go) together with the
  per-type `Is` methods,
* the field aggregation `getFields` / `GetFields`,
* the shared-stack-suffix elision `ElideSharedStackSuffix`,
* the verbose chain formatter `formatEntries` / `printEntry`,
* the textual stack-trace reverse parser `parsePrintedStack`
  (errors/sentry.go).

Go `error` interface values are modelled by `Option Err` (`none` is the
nil interface value); the dynamic types that the package constructs or
inspects are the constructors of the inductive type `Err`.  Program
counters (`uintptr`) are modelled as `Nat`.  Stack capture
(`runtime.Callers`) reads the live call stack, so operations that
capture a stack take the captured counters as an explicit parameter.
Go `==` on comparable error values is modelled by decidable equality on
`Err`, with the `id` field of a base error standing for the distinct
allocation identity that each `New` call produces.
-/

/-- Field maps (`type Fields map[string]any`).  A Go map with string
keys is modelled as an association list with distinct keys; a value of
`none` models a nil `any` value stored in the map. -/
abbrev GoFields := List (String × Option String)

/-- The error values built and inspected by the package:

* `base id msg` — a leaf error from `errors.New` (stderrors.go `New`,
  backed by the stdlib `*errorString`); `id` models the distinct
  allocation identity of each call.
* `goWrap msg cause` — a stdlib `fmt.Errorf("..: %w", cause)` wrap
  node; `msg` is the complete formatted message.
* `wrapper front back` — the combinator node (`errors/with.go`).
* `withStack cause stack hasSkippedFrames` — the stack annotation node.
* `withFields fields cause stack hasSkippedFrames` — the field
  annotation node. -/
inductive Err : Type where
  | base (id : Nat) (msg : String)
  | goWrap (msg : String) (cause : Err)
  | wrapper (front back : Err)
  | withStack (cause : Err) (stack : List Nat) (hasSkippedFrames : Bool)
  | withFields (fields : GoFields) (cause : Err) (stack : List Nat)
      (hasSkippedFrames : Bool)
deriving DecidableEq, Repr

/-- Structural size of an error value; used as the termination measure
for all chain-walking loops (every unwrap step strictly decreases it,
which is the Go-side fact that error chains are finite). -/
def esize : Err → Nat
  | .base _ _ => 1
  | .goWrap _ c => esize c + 1
  | .wrapper f b => esize f + esize b + 1
  | .withStack c _ _ => esize c + 1
  | .withFields _ c _ _ => esize c + 1

/-- Single-step unwrap.

Modelled from the spec: the repository's `UnwrapOnce` helper is called
throughout the sources (stderrors.go, the withStack/withFields files)
but its own definition is not among the provided source files.  The
spec describes it as the "single-step unwrap" primitive that invokes
the value's own unwrap capability and yields absent when there is none;
this coincides with the stdlib `errors.Unwrap` used in
errors/with.go, so a single definition serves for both:

* `base` has no `Unwrap` method — `none`;
* `goWrap` (stdlib `*wrapError`) unwraps to its cause;
* `withStack`/`withFields` have `Unwrap() error { return w.cause }`;
* `wrapper` has the `Unwrap` method of errors/with.go lines 110-119:
  if `errors.Unwrap(s.front)` is non-nil it returns a new wrapper with
  the unwrapped front over the same back, otherwise it returns the
  back error. -/
def unwrapOnce : Err → Option Err
  | .base _ _ => none
  | .goWrap _ c => some c
  | .withStack c _ _ => some c
  | .withFields _ c _ _ => some c
  | .wrapper f b =>
      some (match unwrapOnce f with
        | some f2 => .wrapper f2 b
        | none => b)

/-- The body of `wrapper.Unwrap` (errors/with.go lines 110-119), as a
function of the two fields. -/
def wrapUnwrap (f b : Err) : Err :=
  match unwrapOnce f with
  | some f2 => .wrapper f2 b
  | none => b

theorem unwrapOnce_wrapper (f b : Err) :
    unwrapOnce (.wrapper f b) = some (wrapUnwrap f b) := rfl

theorem esize_pos (e : Err) : 0 < esize e := by
  cases e <;> simp [esize]

theorem unwrapOnce_esize :
    ∀ e e' : Err, unwrapOnce e = some e' → esize e' < esize e := by
  intro e
  induction e with
  | base id msg => intro e' h; simp [unwrapOnce] at h
  | goWrap msg c ih =>
      intro e' h
      simp [unwrapOnce] at h
      subst h; simp [esize]
  | withStack c st sk ih =>
      intro e' h
      simp [unwrapOnce] at h
      subst h; simp [esize]
  | withFields fl c st sk ih =>
      intro e' h
      simp [unwrapOnce] at h
      subst h; simp [esize]
  | wrapper f b ihf ihb =>
      intro e' h
      simp only [unwrapOnce, Option.some.injEq] at h
      subst h
      cases hf : unwrapOnce f with
      | none => simp [hf, esize]; omega
      | some f2 =>
          have := ihf f2 hf
          simp [hf, esize]
          omega

theorem wrapUnwrap_esize (f b : Err) :
    esize (wrapUnwrap f b) < esize (.wrapper f b) := by
  have h := unwrapOnce_esize (.wrapper f b) (wrapUnwrap f b)
    (unwrapOnce_wrapper f b)
  exact h

/-- `With` (errors/with.go lines 19-28): `front` wrapped over `back`.
Nil back yields nil; nil front yields back unchanged; otherwise a new
`wrapper{front, back}` node. -/
def With (back front : Option Err) : Option Err :=
  match back with
  | none => none
  | some b =>
    match front with
    | none => some b
    | some f => some (.wrapper f b)

/-- Insertion of a string into a sorted list of keys; helper for
`formatFields`, which models Go's `sort.Strings` over the map keys. -/
def insertSorted (k : String) : List String → List String
  | [] => [k]
  | x :: xs => if k ≤ x then k :: x :: xs else x :: insertSorted k xs

/-- Sorting of the key list, modelling `sort.Strings(keys)`. -/
def sortStrings (l : List String) : List String :=
  l.foldr insertSorted []

/-- Go map lookup `fields[k]` on the association-list model: the value
of the (unique) matching key.  The outer `Option` is absence of the
key; the inner `Option String` is the stored `any` value (`none`
models a nil value). -/
def fieldsLookup (fl : GoFields) (k : String) : Option (Option String) :=
  (fl.find? (fun kv => kv.1 = k)).map (·.2)

/-- One `k`/`eq`/`val` unit of `formatFields` (withfields file): a nil
value renders as the bare key, a non-nil value as `k:v` (`%v` of a
string value is the string itself). -/
def formatFieldsEntry (fl : GoFields) (k : String) : String :=
  match fieldsLookup fl k with
  | some (some v) => k ++ ":" ++ v
  | _ => k

/-- The comma-joined body of the `formatFields` loop. -/
def formatFieldsBody (fl : GoFields) : List String → String
  | [] => ""
  | [k] => formatFieldsEntry fl k
  | k :: k2 :: ks => formatFieldsEntry fl k ++ "," ++ formatFieldsBody fl (k2 :: ks)

/-- `formatFields` (withfields file): empty map renders as the empty
string, otherwise `fields:[` + sorted `k:v` entries + `],`. -/
def formatFields (fl : GoFields) : String :=
  if fl.length = 0 then ""
  else "fields:[" ++ formatFieldsBody fl (sortStrings (fl.map (·.1))) ++ "],"

/-- `Error()` strings of each dynamic type:

* `base`/`goWrap`: the stored message;
* `wrapper.Error` (errors/with.go lines 123-133): back when front is
  empty, front when back is empty, otherwise `front + ": " + back`;
* `withStack.Error`: delegates to the cause;
* `withFields.Error`: `formatFields` of its own fields prepended to the
  cause's message. -/
def errMsg : Err → String
  | .base _ m => m
  | .goWrap m _ => m
  | .wrapper f b =>
      let front := errMsg f
      let back := errMsg b
      if front = "" then back
      else if back = "" then front
      else front ++ ": " ++ back
  | .withStack c _ _ => errMsg c
  | .withFields fl c _ _ => formatFields fl ++ errMsg c

/-- The loop body of `getLastStack` (withStack file lines 151-163) for
a non-nil current value: the snapshot of the nearest `withStack` or
`withFields` node reachable by repeated `UnwrapOnce`, or absent. -/
def getLastStackE (err : Err) : Option (List Nat) :=
  match err with
  | .withStack _ st _ => some st
  | .withFields _ _ st _ => some st
  | e =>
      match h : unwrapOnce e with
      | some e2 => getLastStackE e2
      | none => none
termination_by esize err
decreasing_by exact unwrapOnce_esize e e2 h

/-- `getLastStack` (withStack file lines 151-163). -/
def getLastStack (e : Option Err) : Option (List Nat) :=
  match e with
  | none => none
  | some err => getLastStackE err

/-- The loop of `ElideSharedStackSuffix` (part_001 lines 142-147): scan
`newSt` at index `i` and `prevSt` at index `j`, both counting down, as
long as both indices are positive; stop at the first mismatch, keeping
the mismatching index. -/
def elideIdx (newSt prevSt : List Nat) : Nat → Nat → Nat
  | i + 1, j + 1 =>
      if newSt.getD (i + 1) 0 ≠ prevSt.getD (j + 1) 0 then i + 1
      else elideIdx newSt prevSt i j
  | i, _ => i

/-- `ElideSharedStackSuffix` (part_001 lines 127-154).  Absent or empty
inputs are returned unchanged with `false`; otherwise the scan index is
clamped to at least 1 and the result is `newSt[:i]`, with the flag
`i < len(newSt)-1`. -/
def ElideSharedStackSuffix (prevStack newStack : Option (List Nat)) :
    Option (List Nat) × Bool :=
  match newStack, prevStack with
  | none, _ => (newStack, false)
  | some _, none => (newStack, false)
  | some newSt, some prevSt =>
    if prevSt.length = 0 then (newStack, false)
    else if newSt.length = 0 then (newStack, false)
    else
      let i0 := elideIdx newSt prevSt (newSt.length - 1) (prevSt.length - 1)
      let i := if i0 = 0 then 1 else i0
      (some (newSt.take i), decide (i < newSt.length - 1))

/-- `WithStackDepth` (withStack file lines 25-34).  The snapshot that
`Callers(depth+2)` reads from the live call stack is passed in as
`captured`; the previous snapshot is looked up on the cause and elided
against it. -/
def WithStackDepth (err : Option Err) (captured : List Nat) : Option Err :=
  match err with
  | none => none
  | some e =>
    let prevStack := getLastStack (some e)
    let res := ElideSharedStackSuffix prevStack (some captured)
    some (.withStack e (res.1.getD []) res.2)

/-- `WithStack` (withStack file lines 15-19): `WithStackDepth` at depth
1; the depth only affects the captured snapshot, which is a parameter
here. -/
def WithStack (err : Option Err) (captured : List Nat) : Option Err :=
  WithStackDepth err captured

/-- `WrapWithFieldsAndDepth` (withfields file): nil error yields nil; a
nil fields map degrades to `WithStackDepth`; otherwise a `withFields`
node with the elided snapshot. -/
def WrapWithFieldsAndDepth (err : Option Err) (fields : Option GoFields)
    (captured : List Nat) : Option Err :=
  match err with
  | none => none
  | some e =>
    match fields with
    | none => WithStackDepth (some e) captured
    | some fl =>
      let prevStack := getLastStack (some e)
      let res := ElideSharedStackSuffix prevStack (some captured)
      some (.withFields fl e (res.1.getD []) res.2)

/-- `WrapWithFields` (withfields file): depth-1 wrapper around
`WrapWithFieldsAndDepth`. -/
def WrapWithFields (err : Option Err) (fields : Option GoFields)
    (captured : List Nat) : Option Err :=
  WrapWithFieldsAndDepth err fields captured

/-- The chain of an error value, outermost first: the value itself
followed by the chain of its single-step unwrap.  This is the sequence
of values visited by any `UnwrapOnce` loop. -/
def chainList (e : Err) : List Err :=
  e :: (match h : unwrapOnce e with
    | some e2 => chainList e2
    | none => [])
termination_by esize e
decreasing_by exact unwrapOnce_esize e e2 h

/-- The loop of `getEntries` (withStack file lines 166-175): each
visited value is prepended to the accumulator before stepping inward,
so the result lists the root cause first and the argument last. -/
def getEntriesLoop (err : Err) (acc : List Err) : List Err :=
  match h : unwrapOnce err with
  | some e2 => getEntriesLoop e2 (err :: acc)
  | none => err :: acc
termination_by esize err
decreasing_by exact unwrapOnce_esize err e2 h

/-- `getEntries` (withStack file lines 166-175). -/
def getEntries (e : Option Err) : List Err :=
  match e with
  | none => []
  | some err => getEntriesLoop err []

theorem getEntriesLoop_eq (e : Err) :
    ∀ acc, getEntriesLoop e acc = (chainList e).reverse ++ acc := by
  induction e using chainList.induct with
  | _ e ih =>
    intro acc
    rw [getEntriesLoop, chainList]
    cases h : unwrapOnce e with
    | none => simp [h]
    | some e2 =>
        simp only [h] at ih ⊢
        rw [ih e2 rfl (e :: acc)]
        simp

/-- The prepending loop of `getEntries` computes the reverse of the
outermost-first chain. -/
theorem getEntries_eq_reverse_chainList (e : Err) :
    getEntries (some e) = (chainList e).reverse := by
  show getEntriesLoop e [] = (chainList e).reverse
  rw [getEntriesLoop_eq e []]
  simp

/-!
The per-type `Is` methods, and the loops they delegate to, are three
mutually recursive functions (`isMethodOf`, `stdIs`, `chainStdIs`),
terminating because every unwrap step strictly shrinks `esize`.  All
model values are comparable, so the `reflectlite` comparability guard
before every Go `==` below is always passed.
-/

mutual

/-- `none` when the dynamic type of `e` has no `Is(error) bool` method
(leaf errors and stdlib wrap nodes have none); otherwise `some` of the
method's result:

* `wrapper.Is` (errors/with.go lines 38-68): front equals target, or
  front's `Is` method accepts target, or back's `Is` method accepts
  target, or the `for inner := s.Unwrap(); ...; inner = UnwrapOnce`
  loop finds a value on which the stdlib `errors.Is` succeeds;
* `withStack.Is` / `withFields.Is`: cause equals target or cause's
  `Is` method accepts target (no loop). -/
def isMethodOf (e target : Err) : Option Bool :=
  match e with
  | .base _ _ => none
  | .goWrap _ _ => none
  | .wrapper f b =>
      some ((decide (f = target))
        || ((isMethodOf f target).getD false)
        || ((isMethodOf b target).getD false)
        || chainStdIs (wrapUnwrap f b) target)
  | .withStack c _ _ =>
      some ((decide (c = target)) || ((isMethodOf c target).getD false))
  | .withFields _ c _ _ =>
      some ((decide (c = target)) || ((isMethodOf c target).getD false))
termination_by 3 * esize e
decreasing_by
  · simp only [esize]; omega
  · simp only [esize]; omega
  · have h1 : ∀ (f b : Err),
        3 * esize (wrapUnwrap f b) + 2 < 3 * esize (Err.wrapper f b) := by
      intro f b
      have h2 := wrapUnwrap_esize f b
      simp only [esize] at h2 ⊢
      omega
    exact h1 _ _
  · simp only [esize]; omega
  · simp only [esize]; omega

/-- The stdlib `errors.Is` called inside `wrapper.Is`: the current
value equals the target, or its `Is` method accepts the target,
otherwise recurse on the single-step unwrap. -/
def stdIs (e target : Err) : Bool :=
  (decide (e = target))
  || ((isMethodOf e target).getD false)
  || (match h : unwrapOnce e with
      | some e2 => stdIs e2 target
      | none => false)
termination_by 3 * esize e + 1
decreasing_by
  · omega
  · have h1 := unwrapOnce_esize e _ (by assumption)
    omega

/-- The `for inner := s.Unwrap(); inner != nil; inner = UnwrapOnce`
loop of `wrapper.Is` (errors/with.go lines 61-65), testing
`errors.Is(inner, target)` at every chain position. -/
def chainStdIs (e target : Err) : Bool :=
  stdIs e target
  || (match h : unwrapOnce e with
      | some e2 => chainStdIs e2 target
      | none => false)
termination_by 3 * esize e + 2
decreasing_by
  · omega
  · have h1 := unwrapOnce_esize e _ (by assumption)
    omega

end

/-- The loop of `Is` (errors/stderrors.go lines 132-141) for a non-nil
current value: the current value equals the reference, or delegates to
its `Is` method (`tryDelegateToIsMethod`), otherwise steps to
`UnwrapOnce` of the current value. -/
def repoIsLoop (e target : Err) : Bool :=
  ((decide (e = target)) || ((isMethodOf e target).getD false))
  || (match h : unwrapOnce e with
      | some e2 => repoIsLoop e2 target
      | none => false)
termination_by esize e
decreasing_by exact unwrapOnce_esize e e2 h

/-- `Is` (errors/stderrors.go lines 125-152): a nil reference matches
exactly a nil error; otherwise the chain loop from `err` decides. -/
def IsGo (err reference : Option Err) : Bool :=
  match reference with
  | none => decide (err = none)
  | some target =>
    match err with
    | none => false
    | some e => repoIsLoop e target

theorem repoIsLoop_front (b a x : Err) (hb : repoIsLoop b x = true) :
    repoIsLoop (.wrapper b a) x = true := by
  rw [repoIsLoop] at hb
  rw [repoIsLoop, unwrapOnce_wrapper]
  simp only [Bool.or_eq_true] at hb ⊢
  rcases hb with (heq | hmeth) | hrest
  · refine Or.inl (Or.inr ?_)
    simp only [isMethodOf, Option.getD_some, Bool.or_eq_true]
    exact Or.inl (Or.inl (Or.inl heq))
  · refine Or.inl (Or.inr ?_)
    simp only [isMethodOf, Option.getD_some, Bool.or_eq_true]
    exact Or.inl (Or.inl (Or.inr hmeth))
  · revert hrest
    cases hbu : unwrapOnce b with
    | none =>
        intro hrest
        have hfalse : false = true := hrest
        simp at hfalse
    | some b2 =>
        intro hrest
        have hrest2 : repoIsLoop b2 x = true := hrest
        refine Or.inr ?_
        have hwu : wrapUnwrap b a = .wrapper b2 a := by
          rw [wrapUnwrap, hbu]
        have hrec := repoIsLoop_front b2 a x hrest2
        show repoIsLoop (wrapUnwrap b a) x = true
        rw [hwu]
        exact hrec
termination_by esize b
decreasing_by exact unwrapOnce_esize b b2 hbu

theorem repoIsLoop_back (b a x : Err) (ha : repoIsLoop a x = true) :
    repoIsLoop (.wrapper b a) x = true := by
  rw [repoIsLoop, unwrapOnce_wrapper]
  simp only [Bool.or_eq_true]
  refine Or.inr ?_
  cases hbu : unwrapOnce b with
  | none => simpa [wrapUnwrap, hbu] using ha
  | some b2 =>
      simp only [wrapUnwrap, hbu]
      exact repoIsLoop_back b2 a x ha
termination_by esize b
decreasing_by exact unwrapOnce_esize b b2 hbu

/-- Unfolding of `chainList` with a non-dependent match. -/
theorem chainList_cons (e : Err) :
    chainList e
      = e :: (match unwrapOnce e with
          | some e2 => chainList e2
          | none => []) := by
  rw [chainList]
  cases h : unwrapOnce e <;> rfl

theorem chainList_some (e e2 : Err) (h : unwrapOnce e = some e2) :
    chainList e = e :: chainList e2 := by
  rw [chainList_cons, h]

theorem chainList_none (e : Err) (h : unwrapOnce e = none) :
    chainList e = [e] := by
  rw [chainList_cons, h]

/-- C1: single-step unwrap of a `wrapper` node drains the front side
first: unwrap of `wrapper front back` is always defined and equals
`wrapUnwrap front back`; when `front` has a further unwrap step `f2`
the result is the new node `wrapper f2 back` with the same back, and
only when `front` has no further unwrap step is `back` itself
returned; consequently the unwrap chain of `wrapper front back` is all
of front's chain (each element wrapped over the same back) followed by
the chain of `back`. -/
theorem wrapper_unwrap_drains_front_first (f b : Err) :
    unwrapOnce (.wrapper f b) = some (wrapUnwrap f b)
    ∧ (∀ f2, unwrapOnce f = some f2 → wrapUnwrap f b = .wrapper f2 b)
    ∧ (unwrapOnce f = none → wrapUnwrap f b = b)
    ∧ chainList (.wrapper f b)
        = (chainList f).map (fun x => Err.wrapper x b) ++ chainList b := by
  refine ⟨rfl, ?_, ?_, ?_⟩
  · intro f2 h
    rw [wrapUnwrap, h]
  · intro h
    rw [wrapUnwrap, h]
  · induction f using chainList.induct with
    | _ f ih =>
      cases hf : unwrapOnce f with
      | none =>
          have h1 : chainList (.wrapper f b) = .wrapper f b :: chainList b := by
            have h2 := chainList_some (.wrapper f b) (wrapUnwrap f b)
              (unwrapOnce_wrapper f b)
            rwa [show wrapUnwrap f b = b by rw [wrapUnwrap, hf]] at h2
          rw [h1, chainList_none f hf]
          simp
      | some f2 =>
          have hwu : wrapUnwrap f b = .wrapper f2 b := by rw [wrapUnwrap, hf]
          have h1 : chainList (.wrapper f b)
              = .wrapper f b :: chainList (.wrapper f2 b) := by
            have h2 := chainList_some (.wrapper f b) (wrapUnwrap f b)
              (unwrapOnce_wrapper f b)
            rwa [hwu] at h2
          rw [h1, ih f2 hf, chainList_some f f2 hf]
          simp

/-- Witness for `wrapper_unwrap_drains_front_first` at a two-deep
front over a leaf back. -/
theorem wrapper_unwrap_drains_front_first_witness :
    wrapUnwrap (.goWrap "ctx: one" (.base 0 "one")) (.base 1 "two")
      = .wrapper (.base 0 "one") (.base 1 "two")
    ∧ wrapUnwrap (.base 0 "one") (.base 1 "two") = .base 1 "two" := by
  refine ⟨?_, ?_⟩
  · exact (wrapper_unwrap_drains_front_first
      (.goWrap "ctx: one" (.base 0 "one")) (.base 1 "two")).2.1
      (.base 0 "one") rfl
  · exact (wrapper_unwrap_drains_front_first
      (.base 0 "one") (.base 1 "two")).2.2.1 rfl

/-- C5: an identity query on a combination succeeds whenever it
succeeds on either side: for all non-nil `a`, `b` and any target `x`,
`Is(a, x)` or `Is(b, x)` implies `Is(With(a, b), x)` (`With(a, b)`
layers front `b` over back `a`). -/
theorem is_combine_of_is_either (a b x : Err)
    (h : IsGo (some a) (some x) = true ∨ IsGo (some b) (some x) = true) :
    IsGo (With (some a) (some b)) (some x) = true := by
  show repoIsLoop (.wrapper b a) x = true
  rcases h with ha | hb
  · exact repoIsLoop_back b a x ha
  · exact repoIsLoop_front b a x hb

/-- Witness for `is_combine_of_is_either`: the combination of two
distinct base errors is `Is`-matched by its front side. -/
theorem is_combine_of_is_either_witness :
    IsGo (some (.base 1 "two")) (some (.base 1 "two")) = true
    ∧ IsGo (With (some (.base 0 "one")) (some (.base 1 "two")))
        (some (.base 1 "two")) = true := by
  have h : IsGo (some (Err.base 1 "two")) (some (.base 1 "two")) = true := by
    show repoIsLoop (.base 1 "two") (.base 1 "two") = true
    rw [repoIsLoop]
    simp
  exact ⟨h, is_combine_of_is_either (.base 0 "one") (.base 1 "two")
    (.base 1 "two") (Or.inr h)⟩

/-- C6: the message of a combination is front's message, colon-space,
back's message; an empty side drops the separator and yields the other
side verbatim; in particular `With(New "one", New "two")` reads
`"two: one"`.  (`With (some a) (some b)` has front `b`, back `a`.) -/
theorem combine_message_concatenation :
    (∀ a b : Err, errMsg a ≠ "" → errMsg b ≠ "" →
      (With (some a) (some b)).map errMsg = some (errMsg b ++ ": " ++ errMsg a))
    ∧ (∀ a b : Err, errMsg b = "" →
      (With (some a) (some b)).map errMsg = some (errMsg a))
    ∧ (∀ a b : Err, errMsg a = "" → errMsg b ≠ "" →
      (With (some a) (some b)).map errMsg = some (errMsg b))
    ∧ (With (some (.base 0 "one")) (some (.base 1 "two"))).map errMsg
        = some "two: one" := by
  refine ⟨?_, ?_, ?_, by decide⟩
  · intro a b ha hb
    simp [With, errMsg, ha, hb]
  · intro a b hb
    simp [With, errMsg, hb]
  · intro a b ha hb
    simp [With, errMsg, ha, hb]

/-- Witness for `combine_message_concatenation` on two non-empty base
messages. -/
theorem combine_message_concatenation_witness :
    errMsg (.base 0 "one") ≠ "" ∧ errMsg (.base 1 "two") ≠ ""
    ∧ (With (some (.base 0 "one")) (some (.base 1 "two"))).map errMsg
        = some (errMsg (.base 1 "two") ++ ": " ++ errMsg (.base 0 "one")) := by
  refine ⟨by decide, by decide, ?_⟩
  exact combine_message_concatenation.1 (.base 0 "one") (.base 1 "two")
    (by decide) (by decide)

/-- C7: absent inputs are handled silently: a nil back yields nil, a
nil front yields the back unchanged with no wrapper node, and the
stack/field annotators return nil on a nil cause. -/
theorem nil_inputs_silently_handled :
    (∀ f : Option Err, With none f = none)
    ∧ (∀ b : Err, With (some b) none = some b)
    ∧ (∀ pcs, WithStack none pcs = none)
    ∧ (∀ pcs, WithStackDepth none pcs = none)
    ∧ (∀ fl pcs, WrapWithFields none fl pcs = none) := by
  refine ⟨?_, ?_, ?_, ?_, ?_⟩
  · intro f; rfl
  · intro b; rfl
  · intro pcs; rfl
  · intro pcs; rfl
  · intro fl pcs; cases fl <;> rfl

/-- C10: a stack annotation leaves the default message unchanged:
`withStack.Error` delegates entirely to the cause, so
`WithStack(err).Error() == err.Error()` for every non-nil `err` and
every captured snapshot. -/
theorem with_stack_preserves_message (e : Err) (pcs : List Nat) :
    (WithStack (some e) pcs).map errMsg = some (errMsg e) := by
  simp [WithStack, WithStackDepth, errMsg]

theorem getD_append_lt (l l' : List Nat) (i d : Nat) (h : i < l.length) :
    (l ++ l').getD i d = l.getD i d := by
  simp [List.getD_eq_getElem?_getD, List.getElem?_append_left h]

theorem getD_snoc_length (l : List Nat) (x d : Nat) :
    (l ++ [x]).getD l.length d = x := by
  simp [List.getD_eq_getElem?_getD, List.getElem?_append_right]

/-- Length of the common prefix of two counter sequences (matching
element-wise from the front until the first mismatch). -/
def commonPrefixLen : List Nat → List Nat → Nat
  | a :: as, b :: bs => if a = b then commonPrefixLen as bs + 1 else 0
  | _, _ => 0

/-- Length of the shared call-stack suffix of two snapshots: the
common prefix of their reversals, i.e. the match count when comparing
from the oldest end of both snapshots inward, as the spec words it. -/
def commonSuffixLen (xs ys : List Nat) : Nat :=
  commonPrefixLen xs.reverse ys.reverse

/-- The number of newest frames that `ElideSharedStackSuffix` actually
keeps: the scan stops after `min (commonSuffixLen, newLen-1, prevLen-1)`
successful comparisons (the newest frame of either snapshot is never
compared), the frame at the stopping index is dropped together with
the matched suffix, and the count is clamped to at least one. -/
def elideKeep (newSt prevSt : List Nat) : Nat :=
  max 1 (newSt.length - 1
    - min (commonSuffixLen newSt prevSt)
        (min (newSt.length - 1) (prevSt.length - 1)))

theorem elideIdx_zero_right (xs ys : List Nat) (i : Nat) :
    elideIdx xs ys i 0 = i := by
  cases i <;> rfl

theorem elideIdx_succ (newSt prevSt : List Nat) (i j : Nat) :
    elideIdx newSt prevSt (i+1) (j+1)
      = if newSt.getD (i+1) 0 ≠ prevSt.getD (j+1) 0 then i + 1
        else elideIdx newSt prevSt i j := rfl

theorem elideIdx_append (x y : Nat) :
    ∀ (i j : Nat) (xs ys : List Nat), i < xs.length → j < ys.length →
      elideIdx (xs ++ [x]) (ys ++ [y]) i j = elideIdx xs ys i j := by
  intro i
  induction i with
  | zero => intro j xs ys _ _; cases j <;> rfl
  | succ i ih =>
      intro j xs ys hi hj
      cases j with
      | zero => rfl
      | succ j =>
          rw [elideIdx_succ, elideIdx_succ,
              getD_append_lt xs [x] (i+1) 0 hi, getD_append_lt ys [y] (j+1) 0 hj]
          by_cases hc : xs.getD (i+1) 0 = ys.getD (j+1) 0
          · rw [if_neg (by simpa using hc), if_neg (by simpa using hc)]
            exact ih j xs ys (by omega) (by omega)
          · rw [if_pos hc, if_pos hc]

theorem elideIdx_closed :
    ∀ (xs ys : List Nat), xs ≠ [] → ys ≠ [] →
      elideIdx xs ys (xs.length - 1) (ys.length - 1)
        = xs.length - 1
          - min (commonSuffixLen xs ys)
              (min (xs.length - 1) (ys.length - 1)) := by
  intro xs
  induction xs using List.reverseRecOn with
  | nil => intro ys h; exact absurd rfl h
  | append_singleton as a ih =>
      intro ys _ hys
      induction ys using List.reverseRecOn with
      | nil => exact absurd rfl hys
      | append_singleton bs b _ =>
          have hxlen : (as ++ [a]).length - 1 = as.length := by simp
          have hylen : (bs ++ [b]).length - 1 = bs.length := by simp
          have hsuf : commonSuffixLen (as ++ [a]) (bs ++ [b])
              = if a = b then commonSuffixLen as bs + 1 else 0 := by
            simp only [commonSuffixLen, List.reverse_append, List.reverse_singleton,
              List.singleton_append, commonPrefixLen]
          rw [hxlen, hylen, hsuf]
          rcases Nat.eq_zero_or_pos as.length with has | has
          · have hnil : as = [] := List.eq_nil_of_length_eq_zero has
            subst hnil
            simp [elideIdx]
          · rcases Nat.eq_zero_or_pos bs.length with hbs | hbs
            · have hnil : bs = [] := List.eq_nil_of_length_eq_zero hbs
              subst hnil
              simp only [List.length_nil, Nat.min_zero, Nat.sub_zero]
              rw [elideIdx_zero_right]
            · obtain ⟨i, hi⟩ := Nat.exists_eq_add_of_lt has
              obtain ⟨j, hj⟩ := Nat.exists_eq_add_of_lt hbs
              have hia : as.length = i + 1 := by omega
              have hjb : bs.length = j + 1 := by omega
              have hne_as : as ≠ [] := by
                intro hc; rw [hc] at has; simp at has
              have hne_bs : bs ≠ [] := by
                intro hc; rw [hc] at hbs; simp at hbs
              rw [hia, hjb, elideIdx_succ]
              have hga : (as ++ [a]).getD (i+1) 0 = a := by
                rw [← hia]; exact getD_snoc_length as a 0
              have hgb : (bs ++ [b]).getD (j+1) 0 = b := by
                rw [← hjb]; exact getD_snoc_length bs b 0
              rw [hga, hgb]
              by_cases hab : a = b
              · rw [if_neg (by simpa using hab), if_pos hab]
                have hstep : elideIdx (as ++ [a]) (bs ++ [b]) i j
                    = elideIdx as bs i j :=
                  elideIdx_append a b i j as bs (by omega) (by omega)
                have hmain := ih bs hne_as hne_bs
                rw [show as.length - 1 = i by omega,
                    show bs.length - 1 = j by omega] at hmain
                rw [hstep, hmain]
                omega
              · rw [if_pos hab, if_neg hab]
                omega

theorem ite_zero_eq_max (m : Nat) : (if m = 0 then 1 else m) = max 1 m := by
  cases m with
  | zero => rfl
  | succ k => simp [Nat.max_eq_right (by omega : 1 ≤ k + 1)]

/-- C2 counterexample: with `new = [10,20,30]` and `prev = [99,98,30]`
only the oldest frame (`30`) is shared, so the claim's `k` (newest
frames outside the matched shared suffix) is 2 and the claimed result
is `new[0:2] = [10,20]`; the code returns `[10]`, dropping the first
mismatching frame `20` as well. -/
theorem elide_drops_first_mismatch_cex :
    (ElideSharedStackSuffix (some [99, 98, 30]) (some [10, 20, 30])).1 = some [10]
    ∧ commonSuffixLen [10, 20, 30] [99, 98, 30] = 1
    ∧ ([10, 20, 30] : List Nat).length
        - commonSuffixLen [10, 20, 30] [99, 98, 30] = 2
    ∧ (ElideSharedStackSuffix (some [99, 98, 30]) (some [10, 20, 30])).1
        ≠ some (([10, 20, 30] : List Nat).take 2) := by decide

/-- C2 amended: if `previous` is absent or either snapshot is empty,
`Elide` returns `new` unchanged with `false`.  Otherwise program
counters are compared from the oldest end of both snapshots inward,
but the scan stops without comparing once it reaches the newest frame
of either snapshot, and on a mismatch the mismatching frame is dropped
together with the matched suffix: the result is `new[0:k]` with
`k = max 1 (len(new) - 1 - min(sharedSuffixLen, len(new)-1,
len(prev)-1))` (so the newest frame is never dropped and the result is
never empty), and the reported flag is `k < len(new) - 1` (true only
when at least two frames were trimmed). -/
theorem elide_shared_stack_suffix_spec :
    (∀ new, ElideSharedStackSuffix none new = (new, false))
    ∧ (∀ prev, ElideSharedStackSuffix prev none = (none, false))
    ∧ (∀ prev newSt, prev = [] ∨ newSt = [] →
        ElideSharedStackSuffix (some prev) (some newSt) = (some newSt, false))
    ∧ (∀ prev newSt, prev ≠ [] → newSt ≠ [] →
        ElideSharedStackSuffix (some prev) (some newSt)
          = (some (newSt.take (elideKeep newSt prev)),
             decide (elideKeep newSt prev < newSt.length - 1))) := by
  refine ⟨?_, ?_, ?_, ?_⟩
  · intro new; cases new <;> rfl
  · intro prev; rfl
  · intro prev newSt h
    rcases h with h | h
    · subst h; simp [ElideSharedStackSuffix]
    · subst h
      simp only [ElideSharedStackSuffix, List.length_nil]
      split <;> simp
  · intro prev newSt hp hn
    have hclosed := elideIdx_closed newSt prev hn hp
    have hp0 : ¬ prev.length = 0 := by simpa [List.length_eq_zero] using hp
    have hn0 : ¬ newSt.length = 0 := by simpa [List.length_eq_zero] using hn
    simp only [ElideSharedStackSuffix, hp0, hn0, if_false, ite_false]
    rw [hclosed, ite_zero_eq_max]
    rfl

/-- Witness for `elide_shared_stack_suffix_spec` on the two concrete
non-empty snapshots of the counterexample. -/
theorem elide_shared_stack_suffix_spec_witness :
    ([99, 98, 30] : List Nat) ≠ [] ∧ ([10, 20, 30] : List Nat) ≠ []
    ∧ ElideSharedStackSuffix (some [99, 98, 30]) (some [10, 20, 30])
        = (some (([10, 20, 30] : List Nat).take
            (elideKeep [10, 20, 30] [99, 98, 30])),
           decide (elideKeep [10, 20, 30] [99, 98, 30]
             < ([10, 20, 30] : List Nat).length - 1)) :=
  ⟨by decide, by decide,
    elide_shared_stack_suffix_spec.2.2.2 [99, 98, 30] [10, 20, 30]
      (by decide) (by decide)⟩

/-- C3 counterexample: eliding the two-frame snapshot `[5,6]` against
itself keeps the single newest frame but reports the elision flag as
`false`, although the original had more than one frame. -/
theorem elide_self_two_frames_flag_false_cex :
    1 < ([5, 6] : List Nat).length
    ∧ ElideSharedStackSuffix (some [5, 6]) (some [5, 6])
        = (some [5], false) := by decide

/-- C3 amended: eliding a snapshot with more than one frame against
itself always yields the minimal one-frame (never empty) result, but
the elision flag is `true` only when the snapshot has more than two
frames; with exactly two frames only the single forced frame was
trimmed and the flag is `false`. -/
theorem elide_self_minimal (s : List Nat) (h : 1 < s.length) :
    ElideSharedStackSuffix (some s) (some s)
      = (some (s.take 1), decide (2 < s.length)) := by
  have hself : ∀ i, elideIdx s s i i = 0 := by
    intro i
    induction i with
    | zero => rfl
    | succ i ih => rw [elideIdx_succ, if_neg (by simp), ih]
  have hp0 : ¬ s.length = 0 := by omega
  simp only [ElideSharedStackSuffix, hp0, if_false, ite_false]
  rw [hself]
  have h01 : (if (0:Nat) = 0 then 1 else 0) = 1 := rfl
  rw [h01]
  congr 1
  exact decide_eq_decide.mpr (by omega)

/-- Witness for `elide_self_minimal` at the three-frame snapshot
`[5,6,7]` (result `[5]`, flag `true`). -/
theorem elide_self_minimal_witness :
    1 < ([5, 6, 7] : List Nat).length
    ∧ ElideSharedStackSuffix (some [5, 6, 7]) (some [5, 6, 7])
        = (some (([5, 6, 7] : List Nat).take 1),
           decide (2 < ([5, 6, 7] : List Nat).length)) :=
  ⟨by decide, elide_self_minimal [5, 6, 7] (by decide)⟩

/-- A normalized stack frame as built by `parsePrintedStack`
(errors/sentry.go `Frame`, restricted to the fields that function
sets). -/
structure SFrame where
  function : String
  module : String
  filename : String
  absPath : String
  lineno : Int
  inApp : Bool
deriving DecidableEq, Repr

/-- The ASCII white-space set of Go's `unicode.IsSpace`, which
`strings.TrimSpace` trims (the non-ASCII space code points are not
exercised by this code path). -/
def goIsSpace (c : Char) : Bool :=
  c = ' ' || c = '\t' || c = '\n' || c = '\x0d'
    || c = '\x0b' || c = '\x0c'

/-- `strings.TrimSpace`, on the character list of the string. -/
def goTrimSpace (s : String) : String :=
  ⟨((s.data.dropWhile goIsSpace).reverse.dropWhile goIsSpace).reverse⟩

/-- `strings.Split` with a single-character separator, on character
lists: splitting never yields an empty list (an empty input gives one
empty field). -/
def splitOnChar (sep : Char) : List Char → List (List Char)
  | [] => [[]]
  | c :: rest =>
      if c = sep then [] :: splitOnChar sep rest
      else
        match splitOnChar sep rest with
        | l :: ls => (c :: l) :: ls
        | [] => [[c]]

/-- `strings.Split(s, sep)` for a one-character separator. -/
def goSplit (s : String) (sep : Char) : List String :=
  (splitOnChar sep s.data).map (fun cs => ⟨cs⟩)

/-- `strings.HasPrefix`. -/
def goHasPrefix (s pre : String) : Bool :=
  pre.data.isPrefixOf s.data

/-- `strings.ReplaceAll(name, "·", ".")` — the separator is a single
rune, so this is a character-wise replacement. -/
def replaceMiddot : List Char → List Char
  | [] => []
  | c :: rest => (if c = '·' then '.' else c) :: replaceMiddot rest

/-- `trimPath` (errors/sentry.go lines 134-142): the first configured
prefix whose removal shortens the path is stripped.  The process-wide
`trimPaths` table (initialized once from the build context) is a
parameter of the model. -/
def trimPath (trimPaths : List String) (filename : String) : String :=
  match trimPaths with
  | [] => filename
  | p :: ps =>
      if goHasPrefix filename p && p.length > 0 then
        filename.drop p.length
      else trimPath ps filename

/-- The `strings.LastIndexByte(fileLine, ':')` split of
`parsePrintedStackEntry`: `none` models the index `-1` (no colon),
otherwise the text before the last colon and the text after it. -/
def lastColonSplit (fileLine : String) : Option (String × String) :=
  let parts := goSplit fileLine ':'
  if parts.length ≤ 1 then none
  else some (String.intercalate ":" parts.dropLast, parts.getLastD "")

/-- `functionName` (errors/sentry.go lines 159-173): split at the last
dot into package and bare name (package empty when there is no dot),
then map the historical `·` separator back to `.` in the bare name. -/
def functionName (name : String) : String × String :=
  let parts := goSplit name '.'
  if parts.length ≤ 1 then ("", ⟨replaceMiddot name.data⟩)
  else (String.intercalate "." parts.dropLast,
    ⟨replaceMiddot (parts.getLastD "").data⟩)

/-- Decimal digit parsing for `goAtoi`, on character codes. -/
def parseDigitsAux (acc : Nat) : List Char → Option Nat
  | [] => some acc
  | c :: rest =>
      if 48 ≤ c.toNat ∧ c.toNat ≤ 57 then
        parseDigitsAux (acc * 10 + (c.toNat - 48)) rest
      else none

/-- All-digit parse; the empty digit string is invalid. -/
def parseDigits : List Char → Option Nat
  | [] => none
  | l => parseDigitsAux 0 l

/-- `strconv.Atoi` as used in `parsePrintedStackEntry`: optional sign,
then decimal digits; any parse error yields 0 because the caller
discards the error (`line, _ = strconv.Atoi(lineStr)`). -/
def goAtoi (s : String) : Int :=
  match s.data with
  | '+' :: rest => (parseDigits rest).elim 0 Int.ofNat
  | '-' :: rest => (parseDigits rest).elim 0 (fun n => -(Int.ofNat n))
  | l => (parseDigits l).elim 0 Int.ofNat

/-- One frame of `parsePrintedStack` (errors/sentry.go lines 101-119
together with `parsePrintedStackEntry`, lines 178-200): the
function-name line plus the optional following tab-indented
`file:line` line; `strconv.Atoi` failures leave the line number 0, and
a literal `"unknown"` name keeps module `"unknown"`. -/
def mkParsedFrame (trimPaths : List String) (fnName : String)
    (fileLineOpt : Option String) : SFrame :=
  let fl : String × Int :=
    match fileLineOpt with
    | none => ("", 0)
    | some rawLine =>
        let fileLine := goTrimSpace rawLine
        match lastColonSplit fileLine with
        | none => (fileLine, 0)
        | some (f, lstr) => (f, goAtoi lstr)
  if fnName ≠ "unknown" then
    let mf := functionName fnName
    ⟨mf.2, mf.1, trimPath trimPaths fl.1, fl.1, fl.2, true⟩
  else
    ⟨fnName, "unknown", trimPath trimPaths fl.1, fl.1, fl.2, true⟩

/-- The scanning loop of `parsePrintedStack` (errors/sentry.go lines
101-119), producing frames in textual (newest-first) order: each
function-name line consumes the following line as well when that line
starts with a tab. -/
def parseStackLines (trimPaths : List String) : List String → List SFrame
  | [] => []
  | [l] => [mkParsedFrame trimPaths l none]
  | l :: next :: rest2 =>
      if goHasPrefix next "\t" then
        mkParsedFrame trimPaths l (some next)
          :: parseStackLines trimPaths rest2
      else
        mkParsedFrame trimPaths l none
          :: parseStackLines trimPaths (next :: rest2)

/-- `parsePrintedStack` (errors/sentry.go lines 92-131): trim the
input, split it into lines, parse the line pairs, return `none` when
no frame was produced, and otherwise reverse the parsed frames so the
oldest frame comes first. -/
def parsePrintedStack (trimPaths : List String) (st : String) :
    Option (List SFrame) :=
  let frames := parseStackLines trimPaths (goSplit (goTrimSpace st) '\n')
  if frames = [] then none
  else some frames.reverse

/-- C9: for an error exposing only a textual newest-first stack trace
in the legacy line-pair format, the parsed result is the reverse of
the textual parse order — an oldest-first sequence whose first entry
is the last parsed textual stack entry. -/
theorem parse_printed_stack_oldest_first (trimPaths : List String)
    (st : String) (frames : List SFrame)
    (h : parsePrintedStack trimPaths st = some frames) :
    frames = (parseStackLines trimPaths (goSplit (goTrimSpace st) '\n')).reverse
    ∧ frames.head?
        = (parseStackLines trimPaths (goSplit (goTrimSpace st) '\n')).getLast? := by
  unfold parsePrintedStack at h
  by_cases hempty : parseStackLines trimPaths (goSplit (goTrimSpace st) '\n') = []
  · simp [hempty] at h
  · simp only [hempty, if_false, ite_false, Option.some.injEq] at h
    subst h
    exact ⟨rfl, List.head?_reverse _⟩

/-- Witness for `parse_printed_stack_oldest_first` on a two-entry
legacy trace: the oldest-first result starts with the frame of the
last textual entry (`main.bar`). -/
theorem parse_printed_stack_oldest_first_witness :
    parsePrintedStack [] "main.foo\n\tmain.go:10\nmain.bar\n\tmain.go:20"
      = some [⟨"bar", "main", "main.go", "main.go", 20, true⟩,
              ⟨"foo", "main", "main.go", "main.go", 10, true⟩]
    ∧ ([(⟨"bar", "main", "main.go", "main.go", 20, true⟩ : SFrame),
        ⟨"foo", "main", "main.go", "main.go", 10, true⟩] : List SFrame).head?
        = (parseStackLines []
            (goSplit (goTrimSpace "main.foo\n\tmain.go:10\nmain.bar\n\tmain.go:20") '\n')).getLast? := by
  have h : parsePrintedStack [] "main.foo\n\tmain.go:10\nmain.bar\n\tmain.go:20"
      = some [⟨"bar", "main", "main.go", "main.go", 20, true⟩,
              ⟨"foo", "main", "main.go", "main.go", 10, true⟩] := by decide
  refine ⟨h, ?_⟩
  exact (parse_printed_stack_oldest_first []
    "main.foo\n\tmain.go:10\nmain.bar\n\tmain.go:20"
    [⟨"bar", "main", "main.go", "main.go", 20, true⟩,
     ⟨"foo", "main", "main.go", "main.go", 10, true⟩] h).2

/-- The Go `%T` rendering of each dynamic error type, as printed by the
`Error types:` footer.  The theorems below depend only on this table
being a fixed name per dynamic type. -/
def typeName : Err → String
  | .base _ _ => "*errors.errorString"
  | .goWrap _ _ => "*fmt.wrapError"
  | .wrapper _ _ => "*errors.wrapper"
  | .withStack _ _ _ => "*errors.withStack"
  | .withFields _ _ _ _ => "*errors.withFields"

/-- `string(detailSep)` (part_001 line 106). -/
def detailSep : String := "\n  | "

/-- `strings.ReplaceAll(s, "\n", detailSep)`, character-wise. -/
def replaceNewlineDetail : List Char → List Char
  | [] => []
  | c :: rest =>
      if c = '\n' then '\n' :: ' ' :: ' ' :: '|' :: ' ' :: replaceNewlineDetail rest
      else c :: replaceNewlineDetail rest

/-- `outputStackTrace` (withStack file lines 195-205): the
`-- Stack trace:` header plus the detail-indented trace when the trace
is non-blank or frames were skipped, followed by the repetition marker
when frames were skipped. -/
def outputStackTrace (hasSkippedFrames : Bool) (stackTraceString : String) :
    String :=
  (if hasSkippedFrames || goTrimSpace stackTraceString ≠ "" then
      "\n  -- Stack trace:" ++ (⟨replaceNewlineDetail stackTraceString.data⟩ : String)
    else "")
  ++ (if hasSkippedFrames then detailSep ++ "[...repeated from below...]" else "")

/-- `printEntry` (withStack file lines 177-193): the entry's message,
preceded by one space unless it starts with a newline, followed by the
resolved stack trace when the entry is a `withStack` or `withFields`
node.  `resolve` models `w.StackTrace().String()`, the run-time
symbolization of the captured program counters. -/
def printEntryStr (resolve : List Nat → String) (entry : Err) : String :=
  (if (errMsg entry).length > 0 then
      (if ¬ goHasPrefix (errMsg entry) "\n" then " " else "") ++ errMsg entry
    else "")
  ++ (match entry with
      | .withStack _ st sk => outputStackTrace sk (resolve st)
      | .withFields _ _ st sk => outputStackTrace sk (resolve st)
      | _ => "")

/-- The `Wraps:` loop of `formatEntries` (withStack file lines
137-141): prints `entries[i]` with label `j`, then steps `i` down and
`j` up until index 0 is printed. -/
def wrapsFrom (resolve : List Nat → String) (entries : List Err) :
    Nat → Nat → String
  | 0, j => "\nWraps: (" ++ toString j ++ ")"
      ++ printEntryStr resolve (entries.getD 0 (.base 0 ""))
  | i + 1, j => "\nWraps: (" ++ toString j ++ ")"
      ++ printEntryStr resolve (entries.getD (i + 1) (.base 0 ""))
      ++ wrapsFrom resolve entries i (j + 1)

/-- The `Error types:` loop of `formatEntries` (withStack file lines
146-148): ` (j) %T` of `entries[i]`, stepping `i` down from the last
index and `j` up from 1. -/
def typesFrom (entries : List Err) : Nat → Nat → String
  | 0, j => " (" ++ toString j ++ ") " ++ typeName (entries.getD 0 (.base 0 ""))
  | i + 1, j => " (" ++ toString j ++ ") "
      ++ typeName (entries.getD (i + 1) (.base 0 ""))
      ++ typesFrom entries i (j + 1)

/-- `withStack.formatEntries` (withStack file lines 120-149) as a
function of the node's cause: builds `entries := getEntries(cause)`
(root first), prints `(1)` with `entries[len-1]`, the `Wraps:` loop
from `entries[len-2]` down to `entries[0]`, and the `Error types:`
footer from `entries[len-1]` down to `entries[0]`. -/
def formatEntriesStr (resolve : List Nat → String) (cause : Err) : String :=
  let entries := getEntries (some cause)
  if entries.length = 0 then ""
  else
    "(1)" ++ printEntryStr resolve (entries.getD (entries.length - 1) (.base 0 ""))
    ++ (if 2 ≤ entries.length then
          wrapsFrom resolve entries (entries.length - 2) 2
        else "")
    ++ "\nError types:" ++ typesFrom entries (entries.length - 1) 1

/-- The amended rendering contract, stated over the outermost-first
chain: the first (outermost) entry is labelled `(1)`, each successive
deeper entry is `Wraps: (j)`, and the footer enumerates the same
entries in the same outermost-first order. -/
def renderWrapsSpec (resolve : List Nat → String) :
    List Err → Nat → String
  | [], _ => ""
  | e :: rest, j => "\nWraps: (" ++ toString j ++ ")"
      ++ printEntryStr resolve e ++ renderWrapsSpec resolve rest (j + 1)

/-- Footer enumeration of the amended rendering contract, in chain
order. -/
def renderTypesSpec : List Err → Nat → String
  | [], _ => ""
  | e :: rest, j => " (" ++ toString j ++ ") " ++ typeName e
      ++ renderTypesSpec rest (j + 1)

/-- The amended rendering contract itself, over an outermost-first
entry list. -/
def renderSpec (resolve : List Nat → String) (chain : List Err) : String :=
  match chain with
  | [] => ""
  | e0 :: rest =>
      "(1)" ++ printEntryStr resolve e0
      ++ renderWrapsSpec resolve rest 2
      ++ "\nError types:" ++ renderTypesSpec (e0 :: rest) 1

theorem getD_of_lt (l : List Err) (i : Nat) (h : i < l.length) (d : Err) :
    l.getD i d = l[i] := by
  rw [List.getD_eq_getElem?_getD, List.getElem?_eq_getElem h]; rfl

theorem getD_reverse_of_lt (r : List Err) (t : Nat) (h : t < r.length)
    (d : Err) :
    r.reverse.getD t d = r.getD (r.length - 1 - t) d := by
  rw [List.getD_eq_getElem?_getD, List.getD_eq_getElem?_getD,
    List.getElem?_reverse h]

theorem drop_last_index (r : List Err) (h : 0 < r.length) :
    r.drop (r.length - 1) = [r.getD (r.length - 1) (.base 0 "")] := by
  have h1 : r.length - 1 < r.length := by omega
  rw [List.drop_eq_getElem_cons h1, getD_of_lt r (r.length - 1) h1]
  have h2 : r.length - 1 + 1 = r.length := by omega
  rw [h2, List.drop_length]

theorem wrapsFrom_eq (resolve : List Nat → String) (r : List Err) :
    ∀ i j, i < r.length →
      wrapsFrom resolve r.reverse i j
        = renderWrapsSpec resolve (r.drop (r.length - 1 - i)) j := by
  intro i
  induction i with
  | zero =>
      intro j h
      rw [wrapsFrom, getD_reverse_of_lt r 0 h]
      simp only [Nat.sub_zero]
      rw [drop_last_index r (by omega), renderWrapsSpec, renderWrapsSpec]
      simp only [String.append_empty]
  | succ i ih =>
      intro j h
      have h1 : r.length - 1 - (i + 1) < r.length := by omega
      have hidx : r.length - 1 - (i + 1) + 1 = r.length - 1 - i := by omega
      have key : r.drop (r.length - 1 - (i + 1))
          = r.getD (r.length - 1 - (i + 1)) (.base 0 "")
              :: r.drop (r.length - 1 - i) := by
        rw [getD_of_lt r _ h1, List.drop_eq_getElem_cons h1, hidx]
      rw [wrapsFrom, getD_reverse_of_lt r (i + 1) h, key, renderWrapsSpec,
        ih (j + 1) (by omega)]

theorem typesFrom_eq (r : List Err) :
    ∀ i j, i < r.length →
      typesFrom r.reverse i j = renderTypesSpec (r.drop (r.length - 1 - i)) j := by
  intro i
  induction i with
  | zero =>
      intro j h
      rw [typesFrom, getD_reverse_of_lt r 0 h]
      simp only [Nat.sub_zero]
      rw [drop_last_index r (by omega), renderTypesSpec, renderTypesSpec]
      simp only [String.append_empty]
  | succ i ih =>
      intro j h
      have h1 : r.length - 1 - (i + 1) < r.length := by omega
      have hidx : r.length - 1 - (i + 1) + 1 = r.length - 1 - i := by omega
      have key : r.drop (r.length - 1 - (i + 1))
          = r.getD (r.length - 1 - (i + 1)) (.base 0 "")
              :: r.drop (r.length - 1 - i) := by
        rw [getD_of_lt r _ h1, List.drop_eq_getElem_cons h1, hidx]
      rw [typesFrom, getD_reverse_of_lt r (i + 1) h, key, renderTypesSpec,
        ih (j + 1) (by omega)]

/-- C4 amended: `formatEntries` renders the chain outermost-first: the
outermost entry of the walked chain is labelled `(1)`, each
successively deeper wrap follows as `Wraps: (2)`, `Wraps: (3)`, … down
to the root cause as `(N)`, and the `Error types:` footer enumerates
the concrete runtime type of the same N entries in the same
outermost-first `(1)…(N)` order. -/
theorem format_entries_renders_outermost_first
    (resolve : List Nat → String) (cause : Err) :
    formatEntriesStr resolve cause = renderSpec resolve (chainList cause) := by
  have hchain := chainList_cons cause
  set r := chainList cause with hr
  set tail := (match unwrapOnce cause with
    | some e2 => chainList e2
    | none => ([] : List Err)) with htl
  have hrc : r = cause :: tail := hchain
  have hlen : r.length = tail.length + 1 := by rw [hrc]; rfl
  have hpos : 0 < r.length := by omega
  unfold formatEntriesStr
  rw [getEntries_eq_reverse_chainList cause]
  simp only [← hr, List.length_reverse]
  rw [if_neg (by omega)]
  have hhead : r.reverse.getD (r.length - 1) (.base 0 "")
      = r.getD 0 (.base 0 "") := by
    rw [getD_reverse_of_lt r (r.length - 1) (by omega)]
    congr 1
    omega
  have hfirst : r.getD 0 (.base 0 "") = cause := by rw [hrc]; rfl
  rw [hhead, hfirst]
  have hfoot : typesFrom r.reverse (r.length - 1) 1 = renderTypesSpec r 1 := by
    have := typesFrom_eq r (r.length - 1) 1 (by omega)
    rwa [show r.length - 1 - (r.length - 1) = 0 by omega, List.drop_zero] at this
  rw [hfoot]
  have hrs : renderSpec resolve (cause :: tail)
      = "(1)" ++ printEntryStr resolve cause
        ++ renderWrapsSpec resolve tail 2
        ++ "\nError types:" ++ renderTypesSpec (cause :: tail) 1 := rfl
  by_cases h2 : 2 ≤ r.length
  · rw [if_pos h2]
    have hwraps := wrapsFrom_eq resolve r (r.length - 2) 2 (by omega)
    rw [show r.length - 1 - (r.length - 2) = 1 by omega] at hwraps
    have hdrop : r.drop 1 = tail := by rw [hrc]; rfl
    rw [hwraps, hdrop, hrc, hrs]
  · rw [if_neg h2]
    have htnil : tail = [] := by
      have hl1 : r.length = 1 := by omega
      rw [hrc] at hl1
      simp at hl1
      exact hl1
    have hw0 : renderWrapsSpec resolve ([] : List Err) 2 = "" := rfl
    rw [hrc, hrs, htnil, hw0]

/-- C4 counterexample: for the two-entry chain `goWrap("more context:
root", base("root"))` the verbose render labels the outermost entry
`(1)` and the root cause `(2)` — not the root cause first as the claim
states — and the `Error types:` footer follows the same
outermost-first order. -/
theorem format_entries_outermost_first_cex :
    formatEntriesStr (fun _ => "")
        (.goWrap "more context: root" (.base 0 "root"))
      = "(1) more context: root\nWraps: (2) root\nError types: (1) *fmt.wrapError (2) *errors.errorString"
    ∧ formatEntriesStr (fun _ => "")
        (.goWrap "more context: root" (.base 0 "root"))
      ≠ "(1) root\nWraps: (2) more context: root\nError types: (1) *errors.errorString (2) *fmt.wrapError" := by
  have he : getEntries (some (Err.goWrap "more context: root" (Err.base 0 "root")))
      = [Err.base 0 "root", Err.goWrap "more context: root" (Err.base 0 "root")] := by
    simp [getEntries, getEntriesLoop, unwrapOnce]
  have h1 : formatEntriesStr (fun _ => "")
      (.goWrap "more context: root" (.base 0 "root"))
      = "(1) more context: root\nWraps: (2) root\nError types: (1) *fmt.wrapError (2) *errors.errorString" := by
    simp only [formatEntriesStr]
    rw [he]
    rfl
  refine ⟨h1, ?_⟩
  rw [h1]
  decide

/-- The fields of an error value when its dynamic type is
`*withFields` (the assignability test of `errors.As` with a
`**withFields` target). -/
def wfFieldsOf : Err → Option GoFields
  | .withFields fl _ _ _ => some fl
  | _ => none

/-- Whether the dynamic type is `*withFields`. -/
def isWF (e : Err) : Bool := (wfFieldsOf e).isSome

/-!
The `As` capability for the target type `*withFields`, mirroring the
`Is` development above: `asMethodWF` models the per-type `As(any) bool`
methods (errors/with.go lines 72-106 for `wrapper`, and the
corresponding `withStack.As`/`withFields.As` methods, which check the
assignability of the cause and then the cause's own `As` method with
no loop); `stdAsWF` models the stdlib `errors.As` called in
`wrapper.As`'s loop; `loopAsWF` models that loop itself.  Each
function returns the `*withFields` node the query would assign into
the target, or `none` when the query reports false.
-/

mutual

/-- `none` when the dynamic type has no `As` method; otherwise `some`
of the node found by the method (`none` inside for a false return). -/
def asMethodWF (e : Err) : Option (Option Err) :=
  match e with
  | .base _ _ => none
  | .goWrap _ _ => none
  | .wrapper f b =>
      some (
        if isWF f then some f
        else
          match asMethodWF f with
          | some (some r) => some r
          | _ => loopAsWF (wrapUnwrap f b))
  | .withStack c _ _ =>
      some (
        if isWF c then some c
        else
          match asMethodWF c with
          | some (some r) => some r
          | _ => none)
  | .withFields _ c _ _ =>
      some (
        if isWF c then some c
        else
          match asMethodWF c with
          | some (some r) => some r
          | _ => none)
termination_by 3 * esize e
decreasing_by
  · simp only [esize]; omega
  · have h1 : ∀ (f b : Err),
        3 * esize (wrapUnwrap f b) + 2 < 3 * esize (Err.wrapper f b) := by
      intro f b
      have h2 := wrapUnwrap_esize f b
      simp only [esize] at h2 ⊢
      omega
    exact h1 _ _
  · simp only [esize]; omega
  · simp only [esize]; omega

/-- The stdlib `errors.As` for the `*withFields` target:
assignability of the current value, then its `As` method, then the
single-step unwrap. -/
def stdAsWF (e : Err) : Option Err :=
  if isWF e then some e
  else
    match asMethodWF e with
    | some (some r) => some r
    | _ =>
        match h : unwrapOnce e with
        | some e2 => stdAsWF e2
        | none => none
termination_by 3 * esize e + 1
decreasing_by
  · omega
  · have h1 := unwrapOnce_esize e _ (by assumption)
    omega

/-- The `for inner := s.Unwrap(); ...` loop of `wrapper.As`
(errors/with.go lines 99-103). -/
def loopAsWF (e : Err) : Option Err :=
  match stdAsWF e with
  | some r => some r
  | none =>
      match h : unwrapOnce e with
      | some e2 => loopAsWF e2
      | none => none
termination_by 3 * esize e + 2
decreasing_by
  · omega
  · have h1 := unwrapOnce_esize e _ (by assumption)
    omega

end

/-- `As` (errors/stderrors.go lines 60-89) for a `**withFields`
target: walk the chain by `UnwrapOnce`, testing assignability and then
the value's own `As` method at each step; the result is the
`*withFields` node assigned into the target. -/
def repoAsWF (e : Err) : Option Err :=
  if isWF e then some e
  else
    match asMethodWF e with
    | some (some r) => some r
    | _ =>
        match h : unwrapOnce e with
        | some e2 => repoAsWF e2
        | none => none
termination_by esize e
decreasing_by exact unwrapOnce_esize e e2 h

/-- The result mapping built by `getFields`, modelled as a lookup
function (`none` = key absent; the inner `Option String` is the stored
`any` value).  `applyFields` is one `for k, v := range fields`
merge pass: each pair overwrites the accumulated binding for its key
(keys are unique within one Go map, so the list order of one map is
immaterial). -/
def applyFields (m : String → Option (Option String)) (fl : GoFields) :
    String → Option (Option String) :=
  fl.foldl (fun acc kv => fun q => if q = kv.1 then some kv.2 else acc q) m

/-- The entries loop of `withFields.getFields` (withfields file lines
217-233): walk the chain entries root-cause first; at each entry that
`As`-resolves to a `*withFields` node, merge that node's own fields. -/
def getFieldsLoop (entries : List Err)
    (m : String → Option (Option String)) : String → Option (Option String) :=
  entries.foldl
    (fun acc err =>
      match repoAsWF err with
      | some node => applyFields acc ((wfFieldsOf node).getD [])
      | none => acc)
    m

/-- `withFields.getFields` on a node with the given components: merge
over all entries of the node's chain, then re-apply the node's own
fields. -/
def withFieldsGetFields (fl : GoFields) (c : Err) (st : List Nat)
    (sk : Bool) : String → Option (Option String) :=
  applyFields
    (getFieldsLoop (getEntries (some (.withFields fl c st sk))) (fun _ => none))
    fl

/-- `GetFields` (withfields file lines 237-244): locate the first
`*withFields` node in the chain via `As` and return its `getFields`
merge; an empty mapping when there is none (or the error is nil). -/
def GetFields (e : Option Err) : String → Option (Option String) :=
  match e with
  | none => fun _ => none
  | some err =>
      match repoAsWF err with
      | some (.withFields fl c st sk) => withFieldsGetFields fl c st sk
      | _ => fun _ => none

/-- Lookup in one fields map, last binding of the key winning
(coincides with the unique binding when keys are distinct). -/
def lookupIn (fl : GoFields) (k : String) : Option (Option String) :=
  ((fl.reverse).find? (fun kv => kv.1 = k)).map (·.2)

/-- Lookup across a sequence of fields maps, later maps winning. -/
def lookupLastIn (maps : List GoFields) (k : String) :
    Option (Option String) :=
  match maps with
  | [] => none
  | fl :: rest =>
      match lookupLastIn rest k with
      | some v => some v
      | none => lookupIn fl k

/-- The per-entry sequence of fields maps that `getFields` merges, in
merge order: the `As`-resolved map of each entry (root-cause first),
then the receiving node's own fields once more. -/
def mergedMaps (fl : GoFields) (c : Err) (st : List Nat) (sk : Bool) :
    List GoFields :=
  ((getEntries (some (.withFields fl c st sk))).filterMap
    (fun err => (repoAsWF err).map (fun node => (wfFieldsOf node).getD [])))
  ++ [fl]

theorem applyFields_lookup (fl : GoFields)
    (m : String → Option (Option String)) (k : String) :
    applyFields m fl k
      = match lookupIn fl k with
        | some v => some v
        | none => m k := by
  induction fl generalizing m with
  | nil => simp [applyFields, lookupIn]
  | cons kv rest ih =>
      rw [applyFields, List.foldl_cons, ← applyFields, ih]
      have hsplit : lookupIn (kv :: rest) k
          = match lookupIn rest k with
            | some v => some v
            | none => if kv.1 = k then some kv.2 else none := by
        rw [lookupIn, lookupIn, List.reverse_cons, List.find?_append]
        cases hfind : (rest.reverse).find? (fun p => p.1 = k) with
        | none =>
            simp only [hfind, Option.none_orElse, Option.map]
            by_cases hk : kv.1 = k
            · simp [List.find?, hk]
            · simp [List.find?, hk]
        | some v => simp [hfind]
      rw [hsplit]
      cases hrest : lookupIn rest k with
      | some v => simp
      | none =>
          simp only
          by_cases hk : k = kv.1
          · simp [hk, if_pos]
          · have hk2 : ¬ kv.1 = k := fun hc => hk hc.symm
            simp [hk, hk2]

theorem getFieldsLoop_lookup (entries : List Err)
    (m : String → Option (Option String)) (k : String) :
    getFieldsLoop entries m k
      = match lookupLastIn
          (entries.filterMap
            (fun err => (repoAsWF err).map
              (fun node => (wfFieldsOf node).getD []))) k with
        | some v => some v
        | none => m k := by
  induction entries generalizing m with
  | nil => simp [getFieldsLoop, lookupLastIn]
  | cons e rest ih =>
      rw [getFieldsLoop, List.foldl_cons, ← getFieldsLoop]
      cases hres : repoAsWF e with
      | none =>
          simp only [hres, List.filterMap_cons, Option.map_none']
          exact ih m
      | some node =>
          simp only [hres, List.filterMap_cons, Option.map_some']
          rw [ih (applyFields m ((wfFieldsOf node).getD []))]
          rw [lookupLastIn]
          cases hlast : lookupLastIn
            (rest.filterMap
              (fun err => (repoAsWF err).map
                (fun node => (wfFieldsOf node).getD []))) k with
          | some v => simp
          | none =>
              simp only
              rw [applyFields_lookup]

theorem lookupLastIn_append (xs ys : List GoFields) (k : String) :
    lookupLastIn (xs ++ ys) k
      = match lookupLastIn ys k with
        | some v => some v
        | none => lookupLastIn xs k := by
  induction xs with
  | nil =>
      simp only [List.nil_append, lookupLastIn]
      cases lookupLastIn ys k <;> simp
  | cons fl rest ih =>
      rw [List.cons_append, lookupLastIn, ih, lookupLastIn]
      cases lookupLastIn ys k <;> cases lookupLastIn rest k <;> simp

/-- C8: `getFields` merges the `As`-resolved per-entry field maps in
root-first order with the receiver's own fields applied last, so on a
key collision the map closer to the outermost wrap wins
(`lookupLastIn` searches the merge sequence from its outermost end);
concretely, wrapping a base with `{b: "true", msg: "two"}` and that
result with `{c: "true", msg: "three"}` reads back `msg = "three"`
with both `b` and `c` present. -/
theorem get_fields_outermost_wins :
    (∀ fl c st sk k,
      withFieldsGetFields fl c st sk k
        = match lookupLastIn (mergedMaps fl c st sk) k with
          | some v => some v
          | none => none)
    ∧ GetFields (some (.withFields [("c", some "true"), ("msg", some "three")]
        (.withFields [("b", some "true"), ("msg", some "two")]
          (.base 0 "one") [] false) [] false)) "msg" = some (some "three")
    ∧ GetFields (some (.withFields [("c", some "true"), ("msg", some "three")]
        (.withFields [("b", some "true"), ("msg", some "two")]
          (.base 0 "one") [] false) [] false)) "b" = some (some "true")
    ∧ GetFields (some (.withFields [("c", some "true"), ("msg", some "three")]
        (.withFields [("b", some "true"), ("msg", some "two")]
          (.base 0 "one") [] false) [] false)) "c" = some (some "true") := by
  have hgen : ∀ fl c st sk k,
      withFieldsGetFields fl c st sk k
        = match lookupLastIn (mergedMaps fl c st sk) k with
          | some v => some v
          | none => none := by
    intro fl c st sk k
    rw [withFieldsGetFields, applyFields_lookup, getFieldsLoop_lookup,
      mergedMaps, lookupLastIn_append]
    have hone : lookupLastIn [fl] k = lookupIn fl k := by
      rw [lookupLastIn, lookupLastIn]
    rw [hone]
    cases lookupIn fl k <;>
      cases lookupLastIn
        ((getEntries (some (.withFields fl c st sk))).filterMap
          (fun err => (repoAsWF err).map
            (fun node => (wfFieldsOf node).getD []))) k <;>
      simp
  have hAsC : repoAsWF (.withFields [("c", some "true"), ("msg", some "three")]
      (.withFields [("b", some "true"), ("msg", some "two")]
        (.base 0 "one") [] false) [] false)
      = some (.withFields [("c", some "true"), ("msg", some "three")]
          (.withFields [("b", some "true"), ("msg", some "two")]
            (.base 0 "one") [] false) [] false) := by
    rw [repoAsWF]
    simp [isWF, wfFieldsOf]
  have hAsB : repoAsWF (.withFields [("b", some "true"), ("msg", some "two")]
      (.base 0 "one") [] false)
      = some (.withFields [("b", some "true"), ("msg", some "two")]
          (.base 0 "one") [] false) := by
    rw [repoAsWF]
    simp [isWF, wfFieldsOf]
  have hAsBase : repoAsWF (.base 0 "one") = none := by
    rw [repoAsWF]
    simp [isWF, wfFieldsOf, asMethodWF, unwrapOnce]
  have hEnt : getEntries (some (Err.withFields
      [("c", some "true"), ("msg", some "three")]
      (.withFields [("b", some "true"), ("msg", some "two")]
        (.base 0 "one") [] false) [] false))
      = [.base 0 "one",
         .withFields [("b", some "true"), ("msg", some "two")]
           (.base 0 "one") [] false,
         .withFields [("c", some "true"), ("msg", some "three")]
           (.withFields [("b", some "true"), ("msg", some "two")]
             (.base 0 "one") [] false) [] false] := by
    simp [getEntries, getEntriesLoop, unwrapOnce]
  have hstep : GetFields (some (.withFields
      [("c", some "true"), ("msg", some "three")]
      (.withFields [("b", some "true"), ("msg", some "two")]
        (.base 0 "one") [] false) [] false))
      = withFieldsGetFields [("c", some "true"), ("msg", some "three")]
          (.withFields [("b", some "true"), ("msg", some "two")]
            (.base 0 "one") [] false) [] false := by
    simp only [GetFields]
    rw [hAsC]
  refine ⟨hgen, ?_, ?_, ?_⟩ <;>
  · rw [hstep, withFieldsGetFields, hEnt, getFieldsLoop]
    simp only [List.foldl_cons, List.foldl_nil, hAsBase, hAsB, hAsC]
    rfl
